import Mathlib

/-!
Shallow embedding of the rule parser and merge engine of the colgen code
generator (`pkg/colgen/generator.go`, `pkg/colgen/replacer.go`).

Go strings are modelled as `List Char` (directive lines are single scanner
lines, so they contain no newline; the `(?m)` flag on the two anchored
regular expressions is therefore inert and the patterns are modelled as
whole-string matches).  Go maps keyed by entity name are modelled as
association lists: `mergeRules` sorts its output by entity name and the
keys are pairwise distinct, so the unspecified map iteration order (and the
instability of `slices.SortFunc`) cannot be observed.
-/

deriving instance DecidableEq for Except

namespace Colgen

/-! ### Character classes and string helpers -/

/-- Model of Go `unicode.IsSpace` (the White_Space code points). -/
def isGoSpace (c : Char) : Bool :=
  c = ' ' || c = '\t' || c = '\n' || c = '\x0b' || c = '\x0c' || c = '\r' ||
  c = '\x85' || c = '\xa0' ||
  c = ' ' ||
  (' ' ≤ c && c ≤ ' ') ||
  c = ' ' || c = ' ' || c = ' ' || c = ' ' || c = '　'

/-- Model of Go `strings.TrimSpace`. -/
def trimSpace (s : List Char) : List Char :=
  ((s.dropWhile isGoSpace).reverse.dropWhile isGoSpace).reverse

/-- Model of Go `strings.Split(s, sep)` for a one-character separator. -/
def splitChar (sep : Char) : List Char → List (List Char)
  | [] => [[]]
  | c :: cs =>
    if c = sep then [] :: splitChar sep cs
    else
      match splitChar sep cs with
      | [] => [[c]]
      | p :: ps => (c :: p) :: ps

/-- Model of Go `strings.Contains(s, string c)` for a one-character needle. -/
def containsChar (c : Char) (s : List Char) : Bool := s.contains c

/-- `\w` character class of Go regexp (ASCII word characters). -/
def isWordChar (c : Char) : Bool := c.isAlphanum || c = '_'

/-- The `[\w.]` character class of `reNameArg`. -/
def isNameArgChar (c : Char) : Bool := isWordChar c || c = '.'

/-- The `[\w.,]` character class of `reNewFullNameArg`. -/
def isReplArgChar (c : Char) : Bool := isWordChar c || c = '.' || c = ','

/-- Model of Go `strings.ToLower` on the ASCII range.  The only strings the
source compares lowercased are `map`/`mapp`; no non-ASCII code point
lowercases to `m`, `a` or `p`, so the ASCII mapping is extensionally
faithful for those comparisons. -/
def toLowerList (s : List Char) : List Char := s.map Char.toLower

/-! ### Error model

The Go source classifies errors with `errors.New` sentinels and wraps them
with `fmt.Errorf("%w: ...", ...)`.  `kind` is the sentinel reached by
`errors.Is`; `ctx` collects the formatting arguments, innermost first
(wrapping appends). -/

inductive ErrKind where
  | unknownLine | missingArg | missingType | missingField | missingEntity
deriving DecidableEq, Repr

structure ColgenError where
  kind : ErrKind
  ctx : List String
deriving DecidableEq, Repr

/-- Model of re-wrapping an error with the offending line
(`fmt.Errorf("%w: %q", err, line)` in `ParseRules`). -/
def wrapErr (e : ColgenError) (line : String) : ColgenError :=
  { e with ctx := e.ctx ++ [line] }

/-! ### Data model (`generator.go`) -/

structure CustomRule where
  Name : String := ""
  Field : String := ""
  Arg : String := ""
deriving DecidableEq, Repr

structure Rule where
  EntityName : String := ""
  BaseGen : Bool := false
  UseListSuffix : Bool := false
  CustomRules : List CustomRule := []
deriving DecidableEq, Repr

/-- `isMapP` from `generator.go`: checks for `Map`/`MapP` case-insensitively. -/
def isMapP (s : String) : Bool :=
  let t := toLowerList s.toList
  t = "map".toList || t = "mapp".toList

/-! ### Directive grammar (`parseCustomRule`, `parseEntities`) -/

/-- Whole-string match of `reNameArg = ^(\w+)\(([\w.]+)\)$` on a
single-line string, returning the two capture groups. -/
def matchNameArg (l : List Char) : Option (List Char × List Char) :=
  let name := l.takeWhile isWordChar
  match l.drop name.length with
  | '(' :: rest =>
    let arg := rest.takeWhile isNameArgChar
    match rest.drop arg.length with
    | [')'] => if name.isEmpty || arg.isEmpty then none else some (name, arg)
    | _ => none
  | _ => none

/-- The `name, arg := l, ""` / `reNameArg.FindStringSubmatch` step of
`parseCustomRule`: on a match the captures, otherwise the whole spec with
an empty argument. -/
def extractNameArg (l : List Char) : List Char × List Char :=
  match matchNameArg l with
  | some (n, a) => (n, a)
  | none => (l, [])

/-- Body of the `for _, l := range strings.Split(ll[1], ",")` loop of
`parseCustomRule`: classifies one rule spec. -/
def parseRuleSpec (l : List Char) : Except ColgenError CustomRule :=
  match extractNameArg l with
  | (name, arg) =>
  if name.take 6 = "Unique".toList then
    .ok { Name := "Unique", Field := ⟨name.drop 6⟩ }
  else if isMapP ⟨name⟩ then
    if arg.isEmpty then .error ⟨.missingArg, [⟨l⟩]⟩
    else .ok { Name := ⟨name⟩, Arg := ⟨arg⟩ }
  else if name = "Index".toList then
    if arg.isEmpty then .error ⟨.missingArg, [⟨l⟩]⟩
    else .ok { Name := "Index", Field := ⟨arg⟩ }
  else
    .ok { Field := ⟨name⟩ }

/-- Fail-fast accumulation of the rule specs of one custom directive. -/
def parseRuleSpecs : List (List Char) → Except ColgenError (List CustomRule)
  | [] => .ok []
  | l :: ls => do
    let cr ← parseRuleSpec l
    let crs ← parseRuleSpecs ls
    pure (cr :: crs)

/-- `parseCustomRule` from `generator.go`: `<Entity>:<spec>[,<spec>...]`. -/
def parseCustomRule (line : List Char) : Except ColgenError (List Rule) :=
  match splitChar ':' line with
  | [entity, specs] =>
    match parseRuleSpecs (splitChar ',' specs) with
    | .error e => .error e
    | .ok crs => .ok [{ EntityName := ⟨entity⟩, CustomRules := crs }]
  | _ => .error ⟨.unknownLine, [⟨line⟩]⟩

/-- `parseEntities` from `generator.go`: one base rule per comma-separated
name. -/
def parseEntities (line : List Char) : Except ColgenError (List Rule) :=
  .ok ((splitChar ',' line).map fun l => { EntityName := ⟨l⟩, BaseGen := true })

/-- The dispatch `switch` in the loop body of `ParseRules`, including the
`fmt.Errorf("%w: %q", err, line)` re-wrapping of parse errors (the
`default` branch returns its error unwrapped). -/
def parseLine (l : List Char) : Except ColgenError (List Rule) :=
  if containsChar ':' l then (parseCustomRule l).mapError (wrapErr · ⟨l⟩)
  else if containsChar ',' l || !containsChar ' ' l then
    (parseEntities l).mapError (wrapErr · ⟨l⟩)
  else .error ⟨.unknownLine, [⟨l⟩]⟩

/-- The line loop of `ParseRules`: trim, skip blank lines, dispatch,
fail fast, concatenate. -/
def collectRules : List String → Except ColgenError (List Rule)
  | [] => .ok []
  | line :: rest =>
    let l := trimSpace line.toList
    if l.isEmpty then collectRules rest
    else
      match parseLine l with
      | .error e => .error e
      | .ok rr =>
        match collectRules rest with
        | .error e => .error e
        | .ok acc => .ok (rr ++ acc)

/-! ### Merge engine (`mergeRules`) -/

/-- The `r.UseListSuffix = useListSuffix` assignment at the top of the
merge loop. -/
def mergeSeed (uls : Bool) (r : Rule) : Rule := { r with UseListSuffix := uls }

/-- The merge of a subsequent rule into the existing map entry. -/
def mergeStep (acc r : Rule) : Rule :=
  if r.CustomRules.isEmpty then { acc with BaseGen := true }
  else { acc with CustomRules := acc.CustomRules ++ r.CustomRules }

/-- One iteration of the merge loop over the association list modelling the
`idx` map: seed a new entry or merge into the existing one. -/
def updateIdx : List Rule → Rule → List Rule
  | [], r => [r]
  | e :: rest, r =>
    if e.EntityName = r.EntityName then mergeStep e r :: rest
    else e :: updateIdx rest r

/-- Byte-lexicographic string comparison: `strings.Compare(a, b) < 0`
(UTF-8 byte order coincides with code-point order). -/
def ltChars : List Char → List Char → Bool
  | _, [] => false
  | [], _ :: _ => true
  | a :: as, b :: bs => if a < b then true else if b < a then false else ltChars as bs

/-- The `slices.SortFunc` comparator of `mergeRules`, as a strict order. -/
def ltRule (a b : Rule) : Bool := ltChars a.EntityName.toList b.EntityName.toList

/-- Insertion step of the sort modelling `slices.SortFunc`. -/
def insertRule (r : Rule) : List Rule → List Rule
  | [] => [r]
  | x :: xs => if ltRule x r then x :: insertRule r xs else r :: x :: xs

/-- Sort by entity name (deterministic model of `slices.SortFunc`; its
output agrees because `idx` keys are pairwise distinct). -/
def sortRules : List Rule → List Rule
  | [] => []
  | x :: xs => insertRule x (sortRules xs)

/-- `mergeRules` from `generator.go`. -/
def mergeRules (rules : List Rule) (uls : Bool) : List Rule :=
  sortRules (rules.foldl (fun idx r => updateIdx idx (mergeSeed uls r)) [])

/-- Spec-side description of merging all rules of one entity: the first
rule seeds, the rest merge via `mergeStep`. -/
def mergeGroup (uls : Bool) : List Rule → Option Rule
  | [] => none
  | r :: rs => some (rs.foldl mergeStep (mergeSeed uls r))

/-! ### Validation (`validateRules`) -/

/-- The inner loop of `validateRules` for one rule. -/
def validateRule (r : Rule) : Option ColgenError :=
  if r.BaseGen then none
  else
    match r.CustomRules.find? (fun cr => !isMapP cr.Name) with
    | some cr => some ⟨.missingEntity, [r.EntityName, cr.Name]⟩
    | none => none

/-- `validateRules` from `generator.go`: first violation wins. -/
def validateRules : List Rule → Option ColgenError
  | [] => none
  | r :: rs =>
    match validateRule r with
    | some e => some e
    | none => validateRules rs

/-- The `err := validateRules(merged); return merged, err` tail of
`ParseRules`. -/
def finishRules (merged : List Rule) : Except ColgenError (List Rule) :=
  match validateRules merged with
  | some e => .error e
  | none => .ok merged

/-- `ParseRules` from `generator.go`.  (The Go function returns the merged
list alongside the validation error; the `Except` collapses that pair to
whichever the callers inspect.) -/
def ParseRules (lines : List String) (useListSuffix : Bool) :
    Except ColgenError (List Rule) :=
  match collectRules lines with
  | .error e => .error e
  | .ok parsed => finishRules (mergeRules parsed useListSuffix)

/-! ### Replacement engine (`replacer.go`) -/

/-- `ReplaceRule` from `replacer.go`.  The `Replace` and `Fields` members
are outputs of the later generation phase and stay at their zero values
throughout `ParseReplaceRule`; they are omitted here. -/
structure ReplaceRule where
  Find : String := ""
  Cmd : String := ""
  Entity : String := ""
  Arg : String := ""
  IsFull : Bool := false
  WithJSON : Bool := false
deriving DecidableEq, Repr

/-- Case-insensitive match of a literal pattern (the `(?i)` flag), returning
the unconsumed remainder. -/
def matchCILit : List Char → List Char → Option (List Char)
  | [], s => some s
  | _ :: _, [] => none
  | p :: ps, c :: cs =>
    if p.toLower = c.toLower then matchCILit ps cs else none

/-- Whole-string match of
`reNewFullNameArg = ^//colgen@(New|new)(\w+)\(([\w.,]+)\)$` (flags `(?mi)`)
on a single-line string, returning the three capture groups.  Under `(?i)`
both alternatives of `(New|new)` accept any casing; the capture is the
source text. -/
def matchReplaceRe (s : List Char) : Option (List Char × List Char × List Char) :=
  match matchCILit "//colgen@".toList s with
  | none => none
  | some rest =>
    match matchCILit "new".toList rest with
    | none => none
    | some rest2 =>
      let cmd := rest.take 3
      let ent := rest2.takeWhile isWordChar
      match rest2.drop ent.length with
      | '(' :: rest3 =>
        let args := rest3.takeWhile isReplArgChar
        match rest3.drop args.length with
        | [')'] => if ent.isEmpty || args.isEmpty then none else some (cmd, ent, args)
        | _ => none
      | _ => none

/-- The `for i, arg := range strings.Split(matches[3], ",")` loop of
`ParseReplaceRule`, for the tokens after the first: accumulates the
`IsFull`/`WithJSON` flags, failing on any other token. -/
def processFlagArgs : List (List Char) → Bool → Bool → Except ColgenError (Bool × Bool)
  | [], f, j => .ok (f, j)
  | t :: ts, f, j =>
    if t = "full".toList then processFlagArgs ts true j
    else if t = "json".toList then processFlagArgs ts f true
    else .error ⟨.unknownLine, [⟨t⟩]⟩

/-- Processing of the comma-separated argument list and assembly of the
result in `ParseReplaceRule`: the first token is the type reference, the
rest are flags; `json` requires `full`; an unqualified reference is
auto-qualified with the entity name.  (The `[]` case is unreachable:
`splitChar` never returns an empty list.) -/
def parseReplaceFlags (rule : String) (cmd ent arg0 : List Char)
    (rest : List (List Char)) : Except ColgenError ReplaceRule :=
  match processFlagArgs rest false false with
  | .error e => .error e
  | .ok (isFull, withJSON) =>
    if withJSON && !isFull then .error ⟨.missingArg, ["full"]⟩
    else
      let arg : String :=
        if containsChar '.' arg0 then ⟨arg0⟩ else ⟨arg0⟩ ++ "." ++ (⟨ent⟩ : String)
      .ok { Find := rule, Cmd := ⟨cmd⟩, Entity := ⟨ent⟩, Arg := arg,
            IsFull := isFull, WithJSON := withJSON }

def parseReplaceTail (rule : String) (cmd ent : List Char) :
    List (List Char) → Except ColgenError ReplaceRule
  | [] => .error ⟨.unknownLine, [rule]⟩
  | arg0 :: rest => parseReplaceFlags rule cmd ent arg0 rest

/-- `ParseReplaceRule` from `replacer.go`. -/
def ParseReplaceRule (rule : String) : Except ColgenError ReplaceRule :=
  match matchReplaceRe rule.toList with
  | none => .error ⟨.unknownLine, [rule]⟩
  | some (cmd, ent, args) => parseReplaceTail rule cmd ent (splitChar ',' args)

/-! ### Semantics of the generated index methods (`genIndex`)

The template emitted by `genIndex` (used both for the default `ID` index of
base generation and for the `Index(Field)` custom rule, which only changes
the method name and key field) is

    r := make(map[K]E, len(ll))
    for i := range ll {
        r[ll[i].F] = ll[i]
    }
    return r

Its loop is embedded below with the Go map represented as a partial
function from keys to records. -/

def genIndexLoop {κ α : Type} [DecidableEq κ] (field : α → κ) (ll : List α) :
    κ → Option α :=
  ll.foldl (fun r x => fun q => if q = field x then some x else r q) (fun _ => none)

/-! ## Helper lemmas -/

theorem ltChars_irrefl (l : List Char) : ltChars l l = false := by
  induction l with
  | nil => rfl
  | cons a as ih => simp [ltChars, ih]

theorem ltChars_asymm : ∀ {a b : List Char}, ltChars a b = true → ltChars b a = false := by
  intro a
  induction a with
  | nil =>
    intro b h
    cases b with
    | nil => simp [ltChars] at h
    | cons y ys => rfl
  | cons x xs ih =>
    intro b h
    cases b with
    | nil => simp [ltChars] at h
    | cons y ys =>
      simp only [ltChars] at h ⊢
      by_cases h1 : x < y
      · have h2 : ¬y < x := lt_asymm h1
        simp [h1, h2]
      · by_cases h2 : y < x
        · simp [h1, h2] at h
        · simp only [h1, h2, if_false] at h ⊢
          exact ih h

theorem ltChars_trans :
    ∀ {a b c : List Char}, ltChars a b = true → ltChars b c = true → ltChars a c = true := by
  intro a
  induction a with
  | nil =>
    intro b c hab hbc
    cases b with
    | nil => simp [ltChars] at hab
    | cons y ys =>
      cases c with
      | nil => simp [ltChars] at hbc
      | cons z zs => rfl
  | cons x xs ih =>
    intro b c hab hbc
    cases b with
    | nil => simp [ltChars] at hab
    | cons y ys =>
      cases c with
      | nil => simp [ltChars] at hbc
      | cons z zs =>
        simp only [ltChars] at hab hbc ⊢
        by_cases h1 : x < y
        · by_cases h3 : y < z
          · simp [lt_trans h1 h3]
          · by_cases h4 : z < y
            · simp [h3, h4] at hbc
            · have : y = z := le_antisymm (not_lt.mp h4) (not_lt.mp h3)
              subst this
              simp [h1]
        · by_cases h2 : y < x
          · simp [h1, h2] at hab
          · have hxy : x = y := le_antisymm (not_lt.mp h2) (not_lt.mp h1)
            subst hxy
            simp only [h1, if_false, lt_irrefl] at hab ⊢
            by_cases h3 : x < z
            · simp [h3]
            · by_cases h4 : z < x
              · simp [h3, h4] at hbc
              · simp only [h3, h4, if_false] at hbc ⊢
                exact ih hab hbc

theorem ltChars_connex :
    ∀ {a b : List Char}, ltChars a b = false → ltChars b a = false → a = b := by
  intro a
  induction a with
  | nil =>
    intro b hab _
    cases b with
    | nil => rfl
    | cons y ys => simp [ltChars] at hab
  | cons x xs ih =>
    intro b hab hba
    cases b with
    | nil => simp [ltChars] at hba
    | cons y ys =>
      simp only [ltChars] at hab hba
      by_cases h1 : x < y
      · simp [h1] at hab
      · by_cases h2 : y < x
        · simp [h2] at hba
        · have hxy : x = y := le_antisymm (not_lt.mp h2) (not_lt.mp h1)
          subst hxy
          simp only [lt_irrefl, if_false] at hab hba
          rw [ih hab hba]

theorem leChars_trans {a b c : List Char} (h1 : ltChars b a = false)
    (h2 : ltChars c b = false) : ltChars c a = false := by
  by_contra h
  rw [Bool.not_eq_false] at h
  by_cases hbc : ltChars b c = true
  · exact absurd (ltChars_trans hbc h) (by rw [h1]; simp)
  · rw [Bool.not_eq_true] at hbc
    have : b = c := ltChars_connex hbc h2
    subst this
    rw [h] at h1
    exact Bool.noConfusion h1

theorem ltRule_asymm {a b : Rule} (h : ltRule a b = true) : ltRule b a = false :=
  ltChars_asymm h

theorem ltRule_connex_names {a b : Rule} (h1 : ltRule a b = false)
    (h2 : ltRule b a = false) : a.EntityName = b.EntityName := by
  have := ltChars_connex (a := a.EntityName.toList) (b := b.EntityName.toList) h1 h2
  exact String.toList_inj.mp this

theorem splitChar_ne_nil (sep : Char) (l : List Char) : splitChar sep l ≠ [] := by
  cases l with
  | nil => simp [splitChar]
  | cons c cs =>
    simp only [splitChar]
    by_cases h : c = sep
    · simp [h]
    · simp only [h, if_false]
      cases splitChar sep cs <;> simp

theorem splitChar_length (sep : Char) (l : List Char) :
    (splitChar sep l).length = l.count sep + 1 := by
  induction l with
  | nil => simp [splitChar]
  | cons c cs ih =>
    simp only [splitChar]
    by_cases h : c = sep
    · simp [h, List.count_cons, ih]
    · simp only [h, if_false]
      rcases hs : splitChar sep cs with _ | ⟨p, ps⟩
      · exact absurd hs (splitChar_ne_nil sep cs)
      · rw [hs] at ih
        simp only [List.length_cons] at ih ⊢
        have hne : (c == sep) = false := by simp [h]
        simp [List.count_cons, hne, ih]

theorem validateRule_none_iff (r : Rule) :
    validateRule r = none ↔
      (r.BaseGen = false → ∀ cr ∈ r.CustomRules, isMapP cr.Name = true) := by
  cases hb : r.BaseGen with
  | true => simp [validateRule, hb]
  | false =>
    simp only [validateRule, hb, Bool.false_eq_true, if_false, forall_const]
    rcases hf : r.CustomRules.find? (fun cr => !isMapP cr.Name) with _ | cr <;> rw [hf]
    · constructor
      · intro _ cr hcr
        have := List.find?_eq_none.mp hf cr hcr
        simpa using this
      · intro _; rfl
    · constructor
      · intro hh; exact Option.noConfusion hh
      · intro hp
        have hmem := List.mem_of_find?_eq_some hf
        have hpcr := List.find?_some hf
        simp only [Bool.not_eq_true'] at hpcr
        have := hp cr hmem
        rw [this] at hpcr
        exact Bool.noConfusion hpcr

theorem validateRule_some_kind (r : Rule) (e : ColgenError)
    (h : validateRule r = some e) : e.kind = ErrKind.missingEntity := by
  unfold validateRule at h
  split at h
  · exact Option.noConfusion h
  · split at h
    · injection h with h
      rw [← h]
    · exact Option.noConfusion h

theorem validateRules_none_iff (rules : List Rule) :
    validateRules rules = none ↔
      ∀ r ∈ rules, r.BaseGen = false → ∀ cr ∈ r.CustomRules, isMapP cr.Name = true := by
  induction rules with
  | nil => simp [validateRules]
  | cons r rs ih =>
    simp only [validateRules, List.forall_mem_cons]
    rcases hv : validateRule r with _ | e
    · have hp := (validateRule_none_iff r).mp hv
      show validateRules rs = none ↔ _
      rw [ih]
      exact ⟨fun hh => ⟨hp, hh⟩, And.right⟩
    · constructor
      · intro hh; exact Option.noConfusion hh
      · intro hh
        have : validateRule r = none := (validateRule_none_iff r).mpr hh.1
        rw [this] at hv
        exact Option.noConfusion hv

theorem validateRules_some_kind :
    ∀ (rules : List Rule) (e : ColgenError), validateRules rules = some e →
      e.kind = ErrKind.missingEntity := by
  intro rules
  induction rules with
  | nil => intro e h; exact absurd h (by simp [validateRules])
  | cons r rs ih =>
    intro e h
    simp only [validateRules] at h
    rcases hv : validateRule r with _ | e'
    · rw [hv] at h
      exact ih e h
    · rw [hv] at h
      injection h with h
      subst h
      exact validateRule_some_kind r e' hv

theorem genIndexLoop_foldl {κ α : Type} [DecidableEq κ] (field : α → κ) :
    ∀ (ll : List α) (r : κ → Option α) (k : κ),
      (ll.foldl (fun r x => fun q => if q = field x then some x else r q) r) k =
        match ll.reverse.find? (fun x => decide (field x = k)) with
        | some y => some y
        | none => r k := by
  intro ll
  induction ll with
  | nil => intro r k; rfl
  | cons x xs ih =>
    intro r k
    simp only [List.foldl_cons, List.reverse_cons, List.find?_append]
    rw [ih]
    rcases hf : xs.reverse.find? (fun x => decide (field x = k)) with _ | y
    · rw [Option.none_or]
      by_cases hk : field x = k
      · rw [List.find?_cons_of_pos _ (by simpa using hk)]
        show (if k = field x then some x else r k) = some x
        rw [if_pos hk.symm]
      · rw [List.find?_cons_of_neg _ (by simpa using hk), List.find?_nil]
        show (if k = field x then some x else r k) = r k
        rw [if_neg fun hh => hk hh.symm]
    · rfl

theorem processFlagArgs_cons_full (ts : List (List Char)) (f j : Bool) :
    processFlagArgs ("full".toList :: ts) f j = processFlagArgs ts true j := rfl

theorem processFlagArgs_cons_json (ts : List (List Char)) (f j : Bool) :
    processFlagArgs ("json".toList :: ts) f j = processFlagArgs ts f true := rfl

theorem processFlagArgs_cons_other (t : List Char) (ts : List (List Char)) (f j : Bool)
    (h1 : t ≠ "full".toList) (h2 : t ≠ "json".toList) :
    processFlagArgs (t :: ts) f j = .error ⟨.unknownLine, [⟨t⟩]⟩ := by
  simp only [processFlagArgs]
  rw [if_neg h1, if_neg h2]

theorem processFlagArgs_bad :
    ∀ (ts : List (List Char)) (f j : Bool),
      (∃ t ∈ ts, t ≠ "full".toList ∧ t ≠ "json".toList) →
      ∃ t ∈ ts, t ≠ "full".toList ∧ t ≠ "json".toList ∧
        processFlagArgs ts f j = .error ⟨.unknownLine, [⟨t⟩]⟩ := by
  intro ts
  induction ts with
  | nil => intro f j h; exact absurd h (by simp)
  | cons t ts ih =>
    intro f j h
    by_cases hfull : t = "full".toList
    · subst hfull
      rcases h with ⟨t', ht', hb1, hb2⟩
      rcases List.mem_cons.mp ht' with ht' | ht'
      · exact absurd ht' hb1
      · rcases ih true j ⟨t', ht', hb1, hb2⟩ with ⟨u, hu, hu1, hu2, hu3⟩
        refine ⟨u, List.mem_cons_of_mem _ hu, hu1, hu2, ?_⟩
        rw [processFlagArgs_cons_full]
        exact hu3
    · by_cases hjson : t = "json".toList
      · subst hjson
        rcases h with ⟨t', ht', hb1, hb2⟩
        rcases List.mem_cons.mp ht' with ht' | ht'
        · exact absurd ht' hb2
        · rcases ih f true ⟨t', ht', hb1, hb2⟩ with ⟨u, hu, hu1, hu2, hu3⟩
          refine ⟨u, List.mem_cons_of_mem _ hu, hu1, hu2, ?_⟩
          rw [processFlagArgs_cons_json]
          exact hu3
      · exact ⟨t, List.mem_cons_self t ts, hfull, hjson,
          processFlagArgs_cons_other t ts f j hfull hjson⟩

theorem processFlagArgs_valid :
    ∀ (ts : List (List Char)) (f j : Bool),
      (∀ t ∈ ts, t = "full".toList ∨ t = "json".toList) →
      processFlagArgs ts f j =
        .ok (f || decide ("full".toList ∈ ts), j || decide ("json".toList ∈ ts)) := by
  intro ts
  induction ts with
  | nil => intro f j _; simp [processFlagArgs]
  | cons t ts ih =>
    intro f j h
    have ht := h t (List.mem_cons_self t ts)
    have hrest : ∀ t ∈ ts, t = "full".toList ∨ t = "json".toList :=
      fun u hu => h u (List.mem_cons_of_mem _ hu)
    rcases ht with ht | ht
    · subst ht
      rw [processFlagArgs_cons_full, ih true j hrest]
      have hne : ("json".toList : List Char) ≠ "full".toList := by decide
      simp [List.mem_cons, hne]
    · subst ht
      have hne : ("json".toList : List Char) ≠ "full".toList := by decide
      rw [processFlagArgs_cons_json, ih f true hrest]
      simp [List.mem_cons, hne]

theorem ParseReplaceRule_eq_tail (rule : String) (cmd ent args : List Char)
    (hm : matchReplaceRe rule.toList = some (cmd, ent, args)) :
    ParseReplaceRule rule = parseReplaceTail rule cmd ent (splitChar ',' args) := by
  unfold ParseReplaceRule
  rw [hm]

theorem parseReplaceTail_error (rule : String) (cmd ent arg0 : List Char)
    (rest : List (List Char)) (e : ColgenError)
    (he : processFlagArgs rest false false = .error e) :
    parseReplaceTail rule cmd ent (arg0 :: rest) = .error e := by
  show parseReplaceFlags rule cmd ent arg0 rest = .error e
  unfold parseReplaceFlags
  rw [he]

theorem parseReplaceTail_flags (rule : String) (cmd ent arg0 : List Char)
    (rest : List (List Char)) (isFull withJSON : Bool)
    (hok : processFlagArgs rest false false = .ok (isFull, withJSON)) :
    parseReplaceTail rule cmd ent (arg0 :: rest) =
      if withJSON && !isFull then .error ⟨.missingArg, ["full"]⟩
      else
        .ok { Find := rule, Cmd := ⟨cmd⟩, Entity := ⟨ent⟩,
              Arg := if containsChar '.' arg0 then (⟨arg0⟩ : String)
                     else ⟨arg0⟩ ++ "." ++ (⟨ent⟩ : String),
              IsFull := isFull, WithJSON := withJSON } := by
  show parseReplaceFlags rule cmd ent arg0 rest = _
  unfold parseReplaceFlags
  rw [hok]

theorem isMapP_length {name : List Char} (h : isMapP ⟨name⟩ = true) :
    name.length ≤ 4 := by
  simp only [isMapP, toLowerList, Bool.or_eq_true, decide_eq_true_eq] at h
  have hld : (String.toList ⟨name⟩ : List Char) = name := rfl
  rw [hld] at h
  rcases h with h | h <;>
  · have hl := congrArg List.length h
    simp only [List.length_map] at hl
    rw [hl]
    decide

theorem collectRules_cons_blank (line : String) (ls : List String)
    (h : (trimSpace line.toList).isEmpty = true) :
    collectRules (line :: ls) = collectRules ls := by
  simp only [collectRules, h, if_true]

theorem collectRules_cons_parse (line : String) (ls : List String)
    (h : (trimSpace line.toList).isEmpty = false) :
    collectRules (line :: ls) =
      match parseLine (trimSpace line.toList) with
      | .error e => .error e
      | .ok rr =>
        match collectRules ls with
        | .error e => .error e
        | .ok acc => .ok (rr ++ acc) := by
  simp only [collectRules, h, Bool.false_eq_true, if_false]

theorem collectRules_filter_blank (lines : List String) :
    collectRules (lines.filter fun l => !(trimSpace l.toList).isEmpty) =
      collectRules lines := by
  induction lines with
  | nil => rfl
  | cons l ls ih =>
    cases hb : (trimSpace l.toList).isEmpty with
    | true =>
      have hb' : trimSpace l.data = [] := by simpa using hb
      rw [collectRules_cons_blank l ls hb, ← ih]
      simp [List.filter_cons, hb']
    | false =>
      have hb' : ¬trimSpace l.data = [] := by simpa using hb
      rw [collectRules_cons_parse l ls hb]
      have hf : (l :: ls).filter (fun l => !(trimSpace l.toList).isEmpty) =
          l :: ls.filter (fun l => !(trimSpace l.toList).isEmpty) := by
        simp [List.filter_cons, hb']
      rw [hf, collectRules_cons_parse l _ hb, ih]

theorem updateIdx_cons_eq (e : Rule) (rest : List Rule) (r : Rule)
    (h : e.EntityName = r.EntityName) :
    updateIdx (e :: rest) r = mergeStep e r :: rest := by
  rw [show updateIdx (e :: rest) r =
    if e.EntityName = r.EntityName then mergeStep e r :: rest
    else e :: updateIdx rest r from rfl, if_pos h]

theorem updateIdx_cons_ne (e : Rule) (rest : List Rule) (r : Rule)
    (h : ¬e.EntityName = r.EntityName) :
    updateIdx (e :: rest) r = e :: updateIdx rest r := by
  rw [show updateIdx (e :: rest) r =
    if e.EntityName = r.EntityName then mergeStep e r :: rest
    else e :: updateIdx rest r from rfl, if_neg h]

theorem mergeStep_name (a r : Rule) : (mergeStep a r).EntityName = a.EntityName := by
  unfold mergeStep
  split <;> rfl

theorem mergeStep_uls (a r : Rule) : (mergeStep a r).UseListSuffix = a.UseListSuffix := by
  unfold mergeStep
  split <;> rfl

theorem mergeStep_seed (a r : Rule) (uls : Bool) :
    mergeStep a (mergeSeed uls r) = mergeStep a r := rfl

theorem mergeSeed_id (uls : Bool) (r : Rule) (h : r.UseListSuffix = uls) :
    mergeSeed uls r = r := by
  cases r
  simp only [mergeSeed]
  simp_all

theorem updateIdx_find? (idx : List Rule) (x : Rule) (n : String) :
    (updateIdx idx x).find? (fun e => decide (e.EntityName = n)) =
      if x.EntityName = n then
        match idx.find? (fun e => decide (e.EntityName = n)) with
        | some e => some (mergeStep e x)
        | none => some x
      else idx.find? (fun e => decide (e.EntityName = n)) := by
  induction idx with
  | nil =>
    by_cases hn : x.EntityName = n
    · simp [updateIdx, hn]
    · simp [updateIdx, hn]
  | cons e rest ih =>
    by_cases he : e.EntityName = x.EntityName
    · rw [updateIdx_cons_eq e rest x he]
      by_cases hn : x.EntityName = n
      · have hen : e.EntityName = n := he.trans hn
        rw [if_pos hn]
        rw [List.find?_cons_of_pos _ (by simp [mergeStep_name, hen]),
          List.find?_cons_of_pos _ (by simp [hen])]
      · have hen : ¬e.EntityName = n := fun hh => hn (he ▸ hh)
        rw [if_neg hn]
        rw [List.find?_cons_of_neg _ (by simp [mergeStep_name, hen]),
          List.find?_cons_of_neg _ (by simp [hen])]
    · rw [updateIdx_cons_ne e rest x he]
      by_cases hen : e.EntityName = n
      · have hn : ¬x.EntityName = n := fun hh => he (hen ▸ hh).symm
        rw [if_neg hn]
        rw [List.find?_cons_of_pos _ (by simp [hen]),
          List.find?_cons_of_pos _ (by simp [hen])]
      · rw [List.find?_cons_of_neg _ (by simp [hen]), ih,
          List.find?_cons_of_neg _ (by simp [hen])]

theorem updateIdx_names (idx : List Rule) (x : Rule) :
    (updateIdx idx x).map Rule.EntityName =
      if x.EntityName ∈ idx.map Rule.EntityName then idx.map Rule.EntityName
      else idx.map Rule.EntityName ++ [x.EntityName] := by
  induction idx with
  | nil => simp [updateIdx]
  | cons e rest ih =>
    by_cases he : e.EntityName = x.EntityName
    · rw [updateIdx_cons_eq e rest x he]
      simp [mergeStep_name, he]

    · rw [updateIdx_cons_ne e rest x he]
      have hne : ¬x.EntityName = e.EntityName := fun hh => he hh.symm
      simp only [List.map_cons, List.mem_cons, hne, false_or, ih]
      by_cases hmem : x.EntityName ∈ rest.map Rule.EntityName
      · rw [if_pos hmem, if_pos hmem]
      · rw [if_neg hmem, if_neg hmem]
        rfl

theorem updateIdx_nodup (idx : List Rule) (x : Rule)
    (h : (idx.map Rule.EntityName).Nodup) :
    ((updateIdx idx x).map Rule.EntityName).Nodup := by
  rw [updateIdx_names]
  by_cases hmem : x.EntityName ∈ idx.map Rule.EntityName
  · rw [if_pos hmem]; exact h
  · rw [if_neg hmem]
    simp [List.nodup_append, h, hmem]

theorem updateIdx_pred (P : Rule → Prop) (idx : List Rule) (x : Rule)
    (hidx : ∀ e ∈ idx, P e) (hx : P x)
    (hstep : ∀ a r, P a → P (mergeStep a r)) :
    ∀ e ∈ updateIdx idx x, P e := by
  induction idx with
  | nil =>
    intro e he
    simp only [updateIdx, List.mem_singleton] at he
    exact he ▸ hx
  | cons a rest ih =>
    intro e he
    by_cases ha : a.EntityName = x.EntityName
    · rw [updateIdx_cons_eq a rest x ha] at he
      rcases List.mem_cons.mp he with he | he
      · exact he ▸ hstep a x (hidx a (List.mem_cons_self a rest))
      · exact hidx e (List.mem_cons_of_mem a he)
    · rw [updateIdx_cons_ne a rest x ha] at he
      rcases List.mem_cons.mp he with he | he
      · exact he ▸ hidx a (List.mem_cons_self a rest)
      · exact ih (fun u hu => hidx u (List.mem_cons_of_mem a hu)) e he

theorem updateIdx_not_mem (idx : List Rule) (x : Rule)
    (h : x.EntityName ∉ idx.map Rule.EntityName) :
    updateIdx idx x = idx ++ [x] := by
  induction idx with
  | nil => rfl
  | cons e rest ih =>
    have he : ¬e.EntityName = x.EntityName := by
      intro hh
      exact h (by simp [hh.symm])
    rw [updateIdx_cons_ne e rest x he]
    rw [ih (fun hh => h (List.mem_cons_of_mem _ hh))]
    rfl

theorem buildIdx_find? (uls : Bool) (rules : List Rule) :
    ∀ (acc : List Rule) (n : String),
      ((rules.foldl (fun idx r => updateIdx idx (mergeSeed uls r)) acc).find?
          (fun e => decide (e.EntityName = n))) =
        match acc.find? (fun e => decide (e.EntityName = n)) with
        | some e => some ((rules.filter (fun x => decide (x.EntityName = n))).foldl mergeStep e)
        | none => mergeGroup uls (rules.filter (fun x => decide (x.EntityName = n))) := by
  induction rules with
  | nil =>
    intro acc n
    rw [List.foldl_nil]
    rcases hf : acc.find? (fun e => decide (e.EntityName = n)) with _ | e <;>
      rw [hf] <;> rfl
  | cons r rs ih =>
    intro acc n
    by_cases hn : r.EntityName = n
    · have hfil : (r :: rs).filter (fun x => decide (x.EntityName = n)) =
          r :: rs.filter (fun x => decide (x.EntityName = n)) := by
        simp [List.filter_cons, hn]
      rw [List.foldl_cons, ih, updateIdx_find?,
        show (mergeSeed uls r).EntityName = r.EntityName from rfl, if_pos hn, hfil]
      rcases hf : acc.find? (fun e => decide (e.EntityName = n)) with _ | e
      · rw [hf]
        rfl
      · rw [hf]
        rfl
    · have hfil : (r :: rs).filter (fun x => decide (x.EntityName = n)) =
          rs.filter (fun x => decide (x.EntityName = n)) := by
        simp [List.filter_cons, hn]
      rw [List.foldl_cons, ih, updateIdx_find?,
        show (mergeSeed uls r).EntityName = r.EntityName from rfl, if_neg hn, hfil]

theorem buildIdx_nodup (uls : Bool) (rules : List Rule) :
    ∀ (acc : List Rule), (acc.map Rule.EntityName).Nodup →
      (((rules.foldl (fun idx r => updateIdx idx (mergeSeed uls r)) acc)).map
          Rule.EntityName).Nodup := by
  induction rules with
  | nil => intro acc h; exact h
  | cons r rs ih =>
    intro acc h
    rw [List.foldl_cons]
    exact ih _ (updateIdx_nodup acc (mergeSeed uls r) h)

theorem buildIdx_uls (uls : Bool) (rules : List Rule) :
    ∀ (acc : List Rule), (∀ e ∈ acc, e.UseListSuffix = uls) →
      ∀ e ∈ rules.foldl (fun idx r => updateIdx idx (mergeSeed uls r)) acc,
        e.UseListSuffix = uls := by
  induction rules with
  | nil => intro acc h; exact h
  | cons r rs ih =>
    intro acc h
    rw [List.foldl_cons]
    refine ih _ ?_
    exact updateIdx_pred (fun e => e.UseListSuffix = uls) acc (mergeSeed uls r) h rfl
      (fun a r' ha => by
        show (mergeStep a r').UseListSuffix = uls
        rw [mergeStep_uls]
        exact ha)

theorem buildIdx_of_distinct (uls : Bool) :
    ∀ (l acc : List Rule), (((acc ++ l).map Rule.EntityName)).Nodup →
      (∀ r ∈ l, r.UseListSuffix = uls) →
      l.foldl (fun idx r => updateIdx idx (mergeSeed uls r)) acc = acc ++ l := by
  intro l
  induction l with
  | nil => intro acc _ _; simp
  | cons r rs ih =>
    intro acc hnd huls
    rw [List.foldl_cons]
    rw [mergeSeed_id uls r (huls r (List.mem_cons_self r rs))]
    have hrnot : r.EntityName ∉ acc.map Rule.EntityName := by
      intro hmem
      rw [List.map_append, List.nodup_append] at hnd
      exact hnd.2.2 hmem (by simp)
    rw [updateIdx_not_mem acc r hrnot]
    rw [ih (acc ++ [r]) (by simpa using hnd)
      (fun u hu => huls u (List.mem_cons_of_mem r hu))]
    simp

theorem find?_eq_some_of_mem_nodup :
    ∀ (idx : List Rule) (r : Rule), (idx.map Rule.EntityName).Nodup → r ∈ idx →
      idx.find? (fun e => decide (e.EntityName = r.EntityName)) = some r := by
  intro idx
  induction idx with
  | nil => intro r _ hr; exact absurd hr (List.not_mem_nil r)
  | cons e rest ih =>
    intro r hnd hr
    rcases List.mem_cons.mp hr with hr | hr
    · subst hr
      exact List.find?_cons_of_pos _ (by simp)
    · have hne : ¬e.EntityName = r.EntityName := by
        intro hh
        have : r.EntityName ∈ rest.map Rule.EntityName := by
          exact List.mem_map_of_mem Rule.EntityName hr
        rw [List.map_cons, List.nodup_cons] at hnd
        exact hnd.1 (hh ▸ this)
      rw [List.find?_cons_of_neg _ (by simp [hne])]
      rw [List.map_cons, List.nodup_cons] at hnd
      exact ih r hnd.2 hr

theorem mem_names_iff_find? (idx : List Rule) (n : String) :
    n ∈ idx.map Rule.EntityName ↔
      (idx.find? (fun e => decide (e.EntityName = n))).isSome := by
  rw [List.find?_isSome]
  constructor
  · intro h
    rcases List.mem_map.mp h with ⟨r, hr, hrn⟩
    exact ⟨r, hr, by simp [hrn]⟩
  · intro ⟨r, hr, hrn⟩
    simp only [decide_eq_true_eq] at hrn
    exact List.mem_map.mpr ⟨r, hr, hrn⟩

theorem insertRule_cons_lt (r x : Rule) (xs : List Rule) (h : ltRule x r = true) :
    insertRule r (x :: xs) = x :: insertRule r xs := by
  rw [show insertRule r (x :: xs) =
    if ltRule x r then x :: insertRule r xs else r :: x :: xs from rfl, if_pos h]

theorem insertRule_cons_ge (r x : Rule) (xs : List Rule) (h : ¬ltRule x r = true) :
    insertRule r (x :: xs) = r :: x :: xs := by
  rw [show insertRule r (x :: xs) =
    if ltRule x r then x :: insertRule r xs else r :: x :: xs from rfl, if_neg h]

theorem insertRule_perm (r : Rule) (l : List Rule) : List.Perm (insertRule r l) (r :: l) := by
  induction l with
  | nil => exact List.Perm.refl _
  | cons x xs ih =>
    by_cases h : ltRule x r = true
    · rw [insertRule_cons_lt r x xs h]
      exact (ih.cons x).trans (List.Perm.swap r x xs)
    · rw [insertRule_cons_ge r x xs h]

theorem sortRules_perm (l : List Rule) : List.Perm (sortRules l) l := by
  induction l with
  | nil => exact List.Perm.refl _
  | cons x xs ih =>
    rw [show sortRules (x :: xs) = insertRule x (sortRules xs) from rfl]
    exact (insertRule_perm x (sortRules xs)).trans (ih.cons x)

theorem leRule_trans {a b c : Rule} (h1 : ltRule b a = false)
    (h2 : ltRule c b = false) : ltRule c a = false :=
  leChars_trans h1 h2

theorem insertRule_sorted (r : Rule) (l : List Rule)
    (h : List.Pairwise (fun a b => ltRule b a = false) l) :
    List.Pairwise (fun a b => ltRule b a = false) (insertRule r l) := by
  induction l with
  | nil => exact List.pairwise_singleton _ r
  | cons x xs ih =>
    rcases List.pairwise_cons.mp h with ⟨hx, hxs⟩
    by_cases hlt : ltRule x r = true
    · rw [insertRule_cons_lt r x xs hlt]
      refine List.pairwise_cons.mpr ⟨?_, ih hxs⟩
      intro y hy
      rcases List.mem_cons.mp ((insertRule_perm r xs).mem_iff.mp hy) with hy' | hy'
      · subst hy'
        exact ltRule_asymm hlt
      · exact hx y hy'
    · have hxr : ltRule x r = false := by
        revert hlt
        cases ltRule x r <;> simp
      rw [insertRule_cons_ge r x xs hlt]
      refine List.pairwise_cons.mpr ⟨?_, h⟩
      intro y hy
      rcases List.mem_cons.mp hy with hy' | hy'
      · subst hy'
        exact hxr
      · exact leRule_trans hxr (hx y hy')

theorem sortRules_sorted (l : List Rule) :
    List.Pairwise (fun a b => ltRule b a = false) (sortRules l) := by
  induction l with
  | nil => exact List.Pairwise.nil
  | cons x xs ih =>
    rw [show sortRules (x :: xs) = insertRule x (sortRules xs) from rfl]
    exact insertRule_sorted x (sortRules xs) ih

theorem pairwise_lt_of_nodup (l : List Rule)
    (hnd : (l.map Rule.EntityName).Nodup)
    (hle : List.Pairwise (fun a b => ltRule b a = false) l) :
    List.Pairwise (fun a b => ltRule a b = true) l := by
  have hne : List.Pairwise (fun a b : Rule => a.EntityName ≠ b.EntityName) l := by
    have := hnd
    rw [List.Nodup, List.pairwise_map] at this
    exact this
  refine (hle.and hne).imp ?_
  rintro a b ⟨h1, h2⟩
  by_contra hab
  rw [Bool.not_eq_true] at hab
  exact h2 (ltRule_connex_names hab h1)

theorem pairwise_lt_nodup (l : List Rule)
    (h : List.Pairwise (fun a b => ltRule a b = true) l) :
    (l.map Rule.EntityName).Nodup := by
  refine List.Pairwise.map Rule.EntityName ?_ h
  intro a b hab heq
  have : ltRule a b = false := by
    show ltChars a.EntityName.toList b.EntityName.toList = false
    rw [heq]
    exact ltChars_irrefl _
  rw [hab] at this
  exact Bool.noConfusion this

theorem insertRule_all_lt (r : Rule) (l : List Rule)
    (h : ∀ y ∈ l, ltRule r y = true) : insertRule r l = r :: l := by
  cases l with
  | nil => rfl
  | cons x xs =>
    have hx : ltRule x r = false := ltRule_asymm (h x (List.mem_cons_self x xs))
    exact insertRule_cons_ge r x xs (by simp [hx])

theorem sortRules_eq_self (l : List Rule)
    (h : List.Pairwise (fun a b => ltRule a b = true) l) : sortRules l = l := by
  induction l with
  | nil => rfl
  | cons x xs ih =>
    rcases List.pairwise_cons.mp h with ⟨hx, hxs⟩
    rw [show sortRules (x :: xs) = insertRule x (sortRules xs) from rfl, ih hxs,
      insertRule_all_lt x xs hx]

theorem buildIdx_find?_nil (uls : Bool) (rules : List Rule) (n : String) :
    ((rules.foldl (fun idx r => updateIdx idx (mergeSeed uls r)) []).find?
        (fun e => decide (e.EntityName = n))) =
      mergeGroup uls (rules.filter fun x => decide (x.EntityName = n)) := by
  rw [buildIdx_find?]
  rfl

theorem mergeRules_nodup_names (rules : List Rule) (uls : Bool) :
    ((mergeRules rules uls).map Rule.EntityName).Nodup := by
  have hidx := buildIdx_nodup uls rules [] (by simp)
  have hperm := (sortRules_perm
    (rules.foldl (fun idx r => updateIdx idx (mergeSeed uls r)) [])).map Rule.EntityName
  exact hperm.nodup_iff.mpr hidx

theorem mergeRules_sorted_lt (rules : List Rule) (uls : Bool) :
    List.Pairwise (fun a b => ltRule a b = true) (mergeRules rules uls) :=
  pairwise_lt_of_nodup _ (mergeRules_nodup_names rules uls) (sortRules_sorted _)

theorem mergeRules_group (rules : List Rule) (uls : Bool) :
    ∀ r ∈ mergeRules rules uls,
      mergeGroup uls (rules.filter fun x => decide (x.EntityName = r.EntityName)) =
        some r := by
  intro r hr
  have hidx := buildIdx_nodup uls rules [] (by simp)
  have hmem := (sortRules_perm
    (rules.foldl (fun idx r => updateIdx idx (mergeSeed uls r)) [])).mem_iff.mp hr
  have hfind := find?_eq_some_of_mem_nodup _ r hidx hmem
  have hb := buildIdx_find?_nil uls rules r.EntityName
  rw [hfind] at hb
  exact hb.symm

theorem mergeRules_mem_names (rules : List Rule) (uls : Bool) (n : String) :
    n ∈ (mergeRules rules uls).map Rule.EntityName ↔
      n ∈ rules.map Rule.EntityName := by
  have hperm := (sortRules_perm
    (rules.foldl (fun idx r => updateIdx idx (mergeSeed uls r)) [])).map Rule.EntityName
  rw [show (mergeRules rules uls).map Rule.EntityName =
    (sortRules (rules.foldl (fun idx r => updateIdx idx (mergeSeed uls r)) [])).map
      Rule.EntityName from rfl]
  rw [hperm.mem_iff, mem_names_iff_find?, buildIdx_find?_nil]
  constructor
  · intro h
    rcases hg : rules.filter (fun x => decide (x.EntityName = n)) with _ | ⟨x, xs⟩
    · rw [hg] at h
      exact absurd h (by simp [mergeGroup])
    · have hx : x ∈ rules.filter (fun x => decide (x.EntityName = n)) := by
        rw [hg]
        exact List.mem_cons_self x xs
      have hpx := List.of_mem_filter hx
      have hxr := List.mem_of_mem_filter hx
      simp only [decide_eq_true_eq] at hpx
      exact List.mem_map.mpr ⟨x, hxr, hpx⟩
  · intro h
    rcases List.mem_map.mp h with ⟨x, hx, hxn⟩
    have hxf : x ∈ rules.filter (fun x => decide (x.EntityName = n)) :=
      List.mem_filter.mpr ⟨hx, by simp [hxn]⟩
    rcases hg : rules.filter (fun x => decide (x.EntityName = n)) with _ | ⟨y, ys⟩
    · rw [hg] at hxf
      exact absurd hxf (List.not_mem_nil x)
    · rw [hg]
      simp [mergeGroup]

theorem mergeRules_uls (rules : List Rule) (uls : Bool) :
    ∀ r ∈ mergeRules rules uls, r.UseListSuffix = uls := by
  intro r hr
  have hmem := (sortRules_perm
    (rules.foldl (fun idx r => updateIdx idx (mergeSeed uls r)) [])).mem_iff.mp hr
  exact buildIdx_uls uls rules [] (by simp) r hmem

theorem foldl_mergeStep_id (xs : List Rule) :
    ∀ (acc : Rule), (∀ y ∈ xs, y.CustomRules = []) → acc.BaseGen = true →
      xs.foldl mergeStep acc = acc := by
  induction xs with
  | nil => intro acc _ _; rfl
  | cons y ys ih =>
    intro acc hxs hacc
    rw [List.foldl_cons]
    have hy : y.CustomRules = [] := hxs y (List.mem_cons_self y ys)
    have hstep : mergeStep acc y = acc := by
      unfold mergeStep
      rw [if_pos (by simp [hy])]
      cases acc
      simp_all
    rw [hstep]
    exact ih acc (fun u hu => hxs u (List.mem_cons_of_mem _ hu)) hacc

theorem mergeGroup_base (uls : Bool) (g : List Rule) (r : Rule)
    (hbase : ∀ x ∈ g, x.BaseGen = true ∧ x.CustomRules = [])
    (h : mergeGroup uls g = some r) :
    r.BaseGen = true ∧ r.CustomRules = [] ∧ r.UseListSuffix = uls := by
  cases g with
  | nil => exact Option.noConfusion h
  | cons x xs =>
    have hx := hbase x (List.mem_cons_self x xs)
    have hfold : xs.foldl mergeStep (mergeSeed uls x) = mergeSeed uls x :=
      foldl_mergeStep_id xs (mergeSeed uls x)
        (fun y hy => (hbase y (List.mem_cons_of_mem _ hy)).2) hx.1
    rw [show mergeGroup uls (x :: xs) =
      some (xs.foldl mergeStep (mergeSeed uls x)) from rfl, hfold] at h
    injection h with h
    subst h
    exact ⟨hx.1, hx.2, rfl⟩

theorem parseLine_entityList (t : List Char) (h2 : containsChar ':' t = false)
    (h3 : containsChar ',' t = true ∨ containsChar ' ' t = false) :
    parseLine t =
      .ok ((splitChar ',' t).map fun l => { EntityName := ⟨l⟩, BaseGen := true }) := by
  unfold parseLine
  rw [if_neg (by simp [h2])]
  have hcond : (containsChar ',' t || !containsChar ' ' t) = true := by
    rcases h3 with h | h <;> simp [h]
  rw [if_pos hcond]
  rfl

theorem ParseRules_ok (lines : List String) (uls : Bool) (parsed : List Rule)
    (h : collectRules lines = .ok parsed) :
    ParseRules lines uls = finishRules (mergeRules parsed uls) := by
  unfold ParseRules
  rw [h]

theorem finishRules_none (merged : List Rule) (h : validateRules merged = none) :
    finishRules merged = .ok merged := by
  unfold finishRules
  rw [h]

theorem parseRuleSpec_eq (l name arg : List Char)
    (h : extractNameArg l = (name, arg)) :
    parseRuleSpec l =
      if name.take 6 = "Unique".toList then
        .ok { Name := "Unique", Field := ⟨name.drop 6⟩ }
      else if isMapP ⟨name⟩ then
        (if arg.isEmpty then .error ⟨.missingArg, [⟨l⟩]⟩
         else .ok { Name := ⟨name⟩, Arg := ⟨arg⟩ })
      else if name = "Index".toList then
        (if arg.isEmpty then .error ⟨.missingArg, [⟨l⟩]⟩
         else .ok { Name := "Index", Field := ⟨arg⟩ })
      else .ok { Field := ⟨name⟩ } := by
  unfold parseRuleSpec
  rw [h]

/-! ## Claims -/

/-- Claim C3: validation succeeds iff every Rule with `BaseGen = false` has
only `Map`/`MapP` (case-insensitive) custom rules; any other custom rule on
a non-base entity fails validation with the "missing main entity" error. -/
theorem claim_validateRules_mapP_only (rules : List Rule) :
    (validateRules rules = none ↔
      ∀ r ∈ rules, r.BaseGen = false → ∀ cr ∈ r.CustomRules, isMapP cr.Name = true) ∧
    (∀ e, validateRules rules = some e → e.kind = ErrKind.missingEntity) :=
  ⟨validateRules_none_iff rules, fun e h => validateRules_some_kind rules e h⟩

theorem claim_validateRules_mapP_only_witness :
    validateRules [{ EntityName := "Show", CustomRules := [{ Name := "MapP", Arg := "db" }] }]
        = none :=
  (claim_validateRules_mapP_only
    [{ EntityName := "Show", CustomRules := [{ Name := "MapP", Arg := "db" }] }]).1.mpr
    (by decide)

/-- Claim C4: a rule spec whose extracted identifier case-insensitively
equals `Map`/`MapP`, or equals `Index` exactly, fails with "missing arg"
when the parenthesized argument is absent; with an argument present, a
`Map`/`MapP` rule keeps the identifier's original casing in `Name` and the
argument in `Arg`, and an `Index` rule puts the argument in `Field`. -/
theorem claim_parseRuleSpec_mapP_index (l name arg : List Char)
    (h : extractNameArg l = (name, arg)) :
    (isMapP ⟨name⟩ = true →
      (arg = [] → parseRuleSpec l = .error ⟨.missingArg, [⟨l⟩]⟩) ∧
      (arg ≠ [] → parseRuleSpec l = .ok { Name := ⟨name⟩, Field := "", Arg := ⟨arg⟩ })) ∧
    (name = "Index".toList →
      (arg = [] → parseRuleSpec l = .error ⟨.missingArg, [⟨l⟩]⟩) ∧
      (arg ≠ [] → parseRuleSpec l = .ok { Name := "Index", Field := ⟨arg⟩, Arg := "" })) := by
  constructor
  · intro hm
    have hu : ¬(name.take 6 = "Unique".toList) := by
      intro hh
      have h6 := congrArg List.length hh
      rw [List.length_take] at h6
      have h6' : ("Unique".toList : List Char).length = 6 := by decide
      rw [h6'] at h6
      have hlen := isMapP_length hm
      omega
    rw [parseRuleSpec_eq l name arg h, if_neg hu, if_pos hm]
    constructor
    · intro ha
      subst ha
      rfl
    · intro ha
      have he : arg.isEmpty = false := by
        cases arg with
        | nil => exact absurd rfl ha
        | cons c cs => rfl
      rw [he]
      rfl
  · intro hidx
    subst hidx
    have hu : ¬(("Index".toList : List Char).take 6 = "Unique".toList) := by decide
    have hm : ¬(isMapP ⟨("Index".toList : List Char)⟩ = true) := by decide
    rw [parseRuleSpec_eq l _ arg h, if_neg hu, if_neg hm, if_pos rfl]
    constructor
    · intro ha
      subst ha
      rfl
    · intro ha
      have he : arg.isEmpty = false := by
        cases arg with
        | nil => exact absurd rfl ha
        | cons c cs => rfl
      rw [he]
      rfl

theorem claim_parseRuleSpec_mapP_index_witness :
    parseRuleSpec "Map(db)".toList = .ok { Name := "Map", Field := "", Arg := "db" } ∧
    parseRuleSpec "Index".toList = .error ⟨.missingArg, ["Index"]⟩ :=
  ⟨((claim_parseRuleSpec_mapP_index "Map(db)".toList "Map".toList "db".toList
      (by decide)).1 (by decide)).2 (by decide),
   ((claim_parseRuleSpec_mapP_index "Index".toList "Index".toList []
      (by decide)).2 (by decide)).1 rfl⟩

/-- Claim C5: the loop of the generated index methods (the default `ID`
index and the `By<Field>` indexes alike) maps each key to the last element
of the input collection bearing that key. -/
theorem claim_genIndexLoop_last_wins {κ α : Type} [DecidableEq κ] (field : α → κ)
    (ll : List α) (k : κ) :
    genIndexLoop field ll k = ll.reverse.find? (fun x => decide (field x = k)) := by
  rw [genIndexLoop, genIndexLoop_foldl]
  rcases hf : ll.reverse.find? (fun x => decide (field x = k)) with _ | y <;> rfl

/-- Claim C6 counterexample: `ParseReplaceRule` applied to the bare string
`"@NewCall(db)"` does not succeed — the regular expression requires the
full `//colgen@` prefix — so the claim fails at this input. -/
theorem claim_parseReplaceRule_newCall_cex :
    ParseReplaceRule "@NewCall(db)" = .error ⟨.unknownLine, ["@NewCall(db)"]⟩ ∧
    decide (ParseReplaceRule "@NewCall(db)" =
      .ok { Find := "@NewCall(db)", Cmd := "New", Entity := "Call",
            Arg := "db.Call", IsFull := false, WithJSON := false }) = false := by
  constructor
  · decide
  · decide

/-- Claim C6 (amended): on the full directive `"//colgen@NewCall(db)"`,
`ParseReplaceRule` succeeds with `Cmd = "New"`, `Entity = "Call"` and the
auto-qualified `Arg = "db.Call"`. -/
theorem claim_parseReplaceRule_newCall :
    ParseReplaceRule "//colgen@NewCall(db)" =
      .ok { Find := "//colgen@NewCall(db)", Cmd := "New", Entity := "Call",
            Arg := "db.Call", IsFull := false, WithJSON := false } := by
  decide

/-- Claim C7: any argument token after the first that is not exactly `full`
or `json` makes `ParseReplaceRule` fail with the "unknown line" error; a
directive whose flag tokens include `json` but not `full` fails with the
"missing arg" error naming `full`. -/
theorem claim_parseReplaceRule_flag_tokens (rule : String)
    (cmd ent args arg0 : List Char) (rest : List (List Char))
    (hm : matchReplaceRe rule.toList = some (cmd, ent, args))
    (hs : splitChar ',' args = arg0 :: rest) :
    ((∃ t ∈ rest, t ≠ "full".toList ∧ t ≠ "json".toList) →
      ∃ t ∈ rest, t ≠ "full".toList ∧ t ≠ "json".toList ∧
        ParseReplaceRule rule = .error ⟨.unknownLine, [⟨t⟩]⟩) ∧
    ((∀ t ∈ rest, t = "full".toList ∨ t = "json".toList) →
      "json".toList ∈ rest → "full".toList ∉ rest →
      ParseReplaceRule rule = .error ⟨.missingArg, ["full"]⟩) := by
  constructor
  · intro hbad
    obtain ⟨t, ht, h1, h2, herr⟩ := processFlagArgs_bad rest false false hbad
    refine ⟨t, ht, h1, h2, ?_⟩
    rw [ParseReplaceRule_eq_tail rule cmd ent args hm, hs,
      parseReplaceTail_error rule cmd ent arg0 rest _ herr]
  · intro hvalid hjson hfull
    have hok := processFlagArgs_valid rest false false hvalid
    have d1 : decide ("full".toList ∈ rest) = false := by simpa using hfull
    have d2 : decide ("json".toList ∈ rest) = true := by simpa using hjson
    rw [d1, d2] at hok
    rw [ParseReplaceRule_eq_tail rule cmd ent args hm, hs,
      parseReplaceTail_flags rule cmd ent arg0 rest _ _ hok]
    rfl

theorem claim_parseReplaceRule_flag_tokens_witness :
    ParseReplaceRule "//colgen@NewUser(db,json)" = .error ⟨.missingArg, ["full"]⟩ :=
  (claim_parseReplaceRule_flag_tokens "//colgen@NewUser(db,json)"
      "New".toList "User".toList "db,json".toList "db".toList ["json".toList]
      (by decide) (by decide)).2
    (by decide) (by decide) (by decide)

/-- Claim C9: a directive line containing two or more colons is rejected by
`parseCustomRule` with the "unknown line" error. -/
theorem claim_parseCustomRule_multi_colon (line : List Char)
    (h : 2 ≤ line.count ':') :
    parseCustomRule line = .error ⟨.unknownLine, [⟨line⟩]⟩ := by
  have hl := splitChar_length ':' line
  unfold parseCustomRule
  rcases hs : splitChar ':' line with _ | ⟨a, _ | ⟨b, _ | ⟨c, rest⟩⟩⟩
  · rfl
  · rfl
  · rw [hs] at hl
    simp only [List.length_cons, List.length_nil] at hl
    omega
  · rfl

theorem claim_parseCustomRule_multi_colon_witness :
    parseCustomRule "A:B:C".toList = .error ⟨.unknownLine, ["A:B:C"]⟩ :=
  claim_parseCustomRule_multi_colon "A:B:C".toList (by decide)

/-- Claim C1 counterexample: on the single entity-list line `"B,A,B"` the
claim as stated predicts one Rule per comma-separated name in listed order
(`B`, `A`, `B`); `ParseRules` instead merges the duplicate and sorts,
returning the two Rules `A`, `B`. -/
theorem claim_parseRules_entityList_cex :
    ParseRules ["B,A,B"] false =
      .ok [{ EntityName := "A", BaseGen := true }, { EntityName := "B", BaseGen := true }] ∧
    decide (ParseRules ["B,A,B"] false =
      .ok [{ EntityName := "B", BaseGen := true }, { EntityName := "A", BaseGen := true },
        { EntityName := "B", BaseGen := true }]) = false := by
  constructor
  · decide
  · decide

/-- Claim C1 (amended): for every directive line of entity-list form (no
colon, and containing a comma or no space), `ParseRules` produces exactly
one Rule per distinct comma-separated name, sorted ascending by entity
name, each with `BaseGen = true`, empty `CustomRules`, and the run's
list-suffix flag. -/
theorem claim_parseRules_entityList (line : String) (uls : Bool)
    (h1 : (trimSpace line.toList).isEmpty = false)
    (h2 : containsChar ':' (trimSpace line.toList) = false)
    (h3 : containsChar ',' (trimSpace line.toList) = true ∨
          containsChar ' ' (trimSpace line.toList) = false) :
    ∃ rs, ParseRules [line] uls = .ok rs ∧
      List.Pairwise (fun a b => ltRule a b = true) rs ∧
      (∀ n : String, n ∈ rs.map Rule.EntityName ↔
        n ∈ (splitChar ',' (trimSpace line.toList)).map fun l => (⟨l⟩ : String)) ∧
      (∀ r ∈ rs, r.BaseGen = true ∧ r.UseListSuffix = uls ∧ r.CustomRules = []) := by
  have hcol : collectRules [line] =
      .ok ((splitChar ',' (trimSpace line.toList)).map
        fun l => { EntityName := ⟨l⟩, BaseGen := true }) := by
    rw [collectRules_cons_parse line [] h1,
      parseLine_entityList (trimSpace line.toList) h2 h3]
    show Except.ok (_ ++ ([] : List Rule)) = _
    rw [List.append_nil]
  set base := (splitChar ',' (trimSpace line.toList)).map
    (fun l => ({ EntityName := ⟨l⟩, BaseGen := true } : Rule)) with hbase
  have hbaseAll : ∀ x ∈ base, x.BaseGen = true ∧ x.CustomRules = [] := by
    intro x hx
    rcases List.mem_map.mp hx with ⟨l, _, rfl⟩
    exact ⟨rfl, rfl⟩
  have hprops : ∀ r ∈ mergeRules base uls,
      r.BaseGen = true ∧ r.UseListSuffix = uls ∧ r.CustomRules = [] := by
    intro r hr
    have hg := mergeRules_group base uls r hr
    have hp := mergeGroup_base uls _ r
      (fun x hx => hbaseAll x (List.mem_of_mem_filter hx)) hg
    exact ⟨hp.1, hp.2.2, hp.2.1⟩
  refine ⟨mergeRules base uls, ?_, mergeRules_sorted_lt base uls, ?_, hprops⟩
  · have hvalid : validateRules (mergeRules base uls) = none := by
      rw [validateRules_none_iff]
      intro r hr hbg
      rw [(hprops r hr).1] at hbg
      exact absurd hbg (by simp)
    rw [ParseRules_ok [line] uls base hcol, finishRules_none _ hvalid]
  · intro n
    rw [mergeRules_mem_names base uls n, hbase, List.map_map]
    exact Iff.rfl

theorem claim_parseRules_entityList_witness :
    ∃ rs, ParseRules ["B,A"] false = .ok rs ∧
      List.Pairwise (fun a b => ltRule a b = true) rs ∧
      (∀ n : String, n ∈ rs.map Rule.EntityName ↔
        n ∈ (splitChar ',' (trimSpace ("B,A" : String).toList)).map
          fun l => (⟨l⟩ : String)) ∧
      (∀ r ∈ rs, r.BaseGen = true ∧ r.UseListSuffix = false ∧ r.CustomRules = []) :=
  claim_parseRules_entityList "B,A" false (by decide) (by decide) (by decide)

/-- Claim C2: merging produces exactly one Rule per distinct entity name
(the output names are strictly sorted, and a name appears in the output iff
it appears in the input), and each output Rule is obtained from the input
Rules bearing its name by seeding with the first and folding the rest:
a subsequent Rule with empty `CustomRules` sets `BaseGen := true`, one with
non-empty `CustomRules` appends them, leaving `BaseGen` unchanged. -/
theorem claim_mergeRules_policy (rules : List Rule) (uls : Bool) :
    List.Pairwise (fun a b => ltRule a b = true) (mergeRules rules uls) ∧
    (∀ n : String, n ∈ (mergeRules rules uls).map Rule.EntityName ↔
      n ∈ rules.map Rule.EntityName) ∧
    (∀ r ∈ mergeRules rules uls,
      mergeGroup uls (rules.filter fun x => decide (x.EntityName = r.EntityName)) =
        some r) :=
  ⟨mergeRules_sorted_lt rules uls, mergeRules_mem_names rules uls,
   mergeRules_group rules uls⟩

theorem claim_mergeRules_policy_witness :
    mergeGroup false
      ([({ EntityName := "News", BaseGen := false,
           CustomRules := [{ Name := "Map", Arg := "db" }] } : Rule),
        { EntityName := "News", BaseGen := true }].filter
        fun x => decide (x.EntityName =
          ({ EntityName := "News", BaseGen := true, UseListSuffix := false,
             CustomRules := [{ Name := "Map", Arg := "db" }] } : Rule).EntityName)) =
      some { EntityName := "News", BaseGen := true, UseListSuffix := false,
             CustomRules := [{ Name := "Map", Arg := "db" }] } :=
  (claim_mergeRules_policy
    [{ EntityName := "News", BaseGen := false,
       CustomRules := [{ Name := "Map", Arg := "db" }] },
     { EntityName := "News", BaseGen := true }] false).2.2
    { EntityName := "News", BaseGen := true, UseListSuffix := false,
      CustomRules := [{ Name := "Map", Arg := "db" }] } (by decide)

/-- Claim C8: merging is idempotent — applying `mergeRules` with the same
list-suffix flag to its own output returns the identical list. -/
theorem claim_mergeRules_idempotent (rules : List Rule) (uls : Bool) :
    mergeRules (mergeRules rules uls) uls = mergeRules rules uls := by
  have hsorted := mergeRules_sorted_lt rules uls
  have hnodup := mergeRules_nodup_names rules uls
  have huls := mergeRules_uls rules uls
  show sortRules ((mergeRules rules uls).foldl
    (fun idx r => updateIdx idx (mergeSeed uls r)) []) = mergeRules rules uls
  rw [buildIdx_of_distinct uls (mergeRules rules uls) [] (by simpa using hnodup) huls,
    List.nil_append]
  exact sortRules_eq_self _ hsorted

/-- Claim C10: `ParseRules` skips lines that are empty or whitespace-only
after trimming; the result equals parsing the line list with those lines
removed. -/
theorem claim_parseRules_skip_blank (lines : List String) (uls : Bool) :
    ParseRules lines uls =
      ParseRules (lines.filter fun l => !(trimSpace l.toList).isEmpty) uls := by
  unfold ParseRules
  rw [collectRules_filter_blank]

end Colgen
